import Mathlib

/-
Verification of the byte-array embedder `cmake/embed_bin.py`.

The script reads a binary file, and writes a C++ translation unit holding an
`extern const unsigned char` array with one decimal literal per input byte
(twelve per row) together with an `extern const std::size_t` length constant.
The definitions below embed the script's text generation over `List Char`
and its command-line behaviour over an abstract read function; the theorems
settle the specification's claims about it.
-/

set_option maxHeartbeats 1000000

/-- Left brace character (written numerically). -/
def lbrace : Char := Char.ofNat 123

/-- Right brace character (written numerically). -/
def rbrace : Char := Char.ofNat 125

/-- Character for a single decimal digit value. -/
def digitChar (d : Nat) : Char := Char.ofNat (48 + d)

/-- Fuelled computation of the decimal digit values of a natural number,
most significant digit first.  This mirrors the decimal rendering Python's
`str` performs on the nonnegative integers the script prints (each byte via
`str(b)` and the length via `'%d'`). -/
def digitsAux : Nat → Nat → List Nat
  | 0, _ => []
  | fuel + 1, n => if n < 10 then [n] else digitsAux fuel (n / 10) ++ [n % 10]

/-- Decimal digit values of a natural number. -/
def natDigits (n : Nat) : List Nat := digitsAux (n + 1) n

/-- Decimal rendering of a natural number, as Python's `str` of a
nonnegative integer. -/
def natToDecimal (n : Nat) : List Char := (natDigits n).map digitChar

/-- Test for a decimal digit character. -/
def isDigitCh (c : Char) : Bool := 48 ≤ c.toNat && c.toNat ≤ 57

/-- Numeric value of a digit character. -/
def digitVal (c : Char) : Nat := c.toNat - 48

/-- Value denoted by a run of decimal digit characters. -/
def parseNum (s : List Char) : Nat := s.foldl (fun a c => 10 * a + digitVal c) 0

theorem digitsAux_lt_ten : ∀ fuel n, n < fuel → ∀ d ∈ digitsAux fuel n, d < 10 := by
  intro fuel
  induction fuel with
  | zero => intro n h; omega
  | succ f ih =>
    intro n h d hd
    by_cases hn : n < 10
    · simp [digitsAux, hn] at hd; omega
    · simp only [digitsAux, if_neg hn, List.mem_append, List.mem_singleton] at hd
      rcases hd with h1 | h2
      · exact ih (n / 10) (by omega) d h1
      · omega

theorem digitsAux_ne_nil : ∀ fuel n, n < fuel → digitsAux fuel n ≠ [] := by
  intro fuel
  cases fuel with
  | zero => intro n h; omega
  | succ f =>
    intro n _
    by_cases hn : n < 10 <;> simp [digitsAux, hn, List.append_eq_nil]

theorem digitVal_digitChar : ∀ d, d < 10 → digitVal (digitChar d) = d := by decide

theorem isDigitCh_digitChar : ∀ d, d < 10 → isDigitCh (digitChar d) = true := by decide

theorem digitChar_ne_rbrace : ∀ d, d < 10 → digitChar d ≠ rbrace := by decide

theorem digitChar_ne_newline : ∀ d, d < 10 → digitChar d ≠ '\n' := by decide

theorem digitsAux_foldl : ∀ fuel n, n < fuel → ∀ a : Nat,
    List.foldl (fun a c => 10 * a + digitVal c) a ((digitsAux fuel n).map digitChar)
      = a * 10 ^ (digitsAux fuel n).length + n := by
  intro fuel
  induction fuel with
  | zero => intro n h; omega
  | succ f ih =>
    intro n h a
    by_cases hn : n < 10
    · simp only [digitsAux, if_pos hn, List.map_cons, List.map_nil, List.foldl_cons,
        List.foldl_nil, List.length_cons, List.length_nil]
      rw [digitVal_digitChar n hn, pow_succ, pow_zero]
      omega
    · simp only [digitsAux, if_neg hn, List.map_append, List.foldl_append, List.map_cons,
        List.map_nil, List.foldl_cons, List.foldl_nil, List.length_append,
        List.length_cons, List.length_nil]
      rw [ih (n / 10) (by omega) a, digitVal_digitChar (n % 10) (by omega)]
      rw [pow_succ, ← Nat.mul_assoc]
      generalize a * 10 ^ (digitsAux f (n / 10)).length = X
      omega

theorem parseNum_natToDecimal (n : Nat) : parseNum (natToDecimal n) = n := by
  have h := digitsAux_foldl (n + 1) n (by omega) 0
  unfold parseNum natToDecimal natDigits
  rw [h]
  simp

theorem natDigits_lt_ten (n : Nat) : ∀ d ∈ natDigits n, d < 10 :=
  digitsAux_lt_ten (n + 1) n (by omega)

theorem natDigits_ne_nil (n : Nat) : natDigits n ≠ [] :=
  digitsAux_ne_nil (n + 1) n (by omega)

theorem natToDecimal_ne_nil (n : Nat) : natToDecimal n ≠ [] := by
  unfold natToDecimal
  simp [natDigits_ne_nil n]

theorem natToDecimal_chars (n : Nat) :
    ∀ c ∈ natToDecimal n, isDigitCh c = true ∧ c ≠ rbrace ∧ c ≠ '\n' := by
  intro c hc
  rcases List.mem_map.mp hc with ⟨d, hd, rfl⟩
  have hlt := natDigits_lt_ten n d hd
  exact ⟨isDigitCh_digitChar d hlt, digitChar_ne_rbrace d hlt, digitChar_ne_newline d hlt⟩

/-- Maximal runs of consecutive decimal digit characters in a character list,
carrying the (reversed) run in progress in the accumulator. -/
def digitRunsAux : List Char → List Char → List (List Char)
  | [], acc => if acc = [] then [] else [acc.reverse]
  | c :: cs, acc =>
    if isDigitCh c then digitRunsAux cs (c :: acc)
    else if acc = [] then digitRunsAux cs []
    else acc.reverse :: digitRunsAux cs []

/-- Maximal runs of consecutive decimal digit characters. -/
def digitRuns (s : List Char) : List (List Char) := digitRunsAux s []

theorem runsAux_digits : ∀ ds : List Char, (∀ c ∈ ds, isDigitCh c = true) →
    ∀ rest acc, digitRunsAux (ds ++ rest) acc = digitRunsAux rest (ds.reverse ++ acc) := by
  intro ds
  induction ds with
  | nil => intro _ rest acc; simp
  | cons c cs ih =>
    intro h rest acc
    have hc : isDigitCh c = true := h c (by simp)
    simp only [List.cons_append, digitRunsAux, List.append_eq, hc, if_true]
    rw [ih (fun x hx => h x (by simp [hx])) rest (c :: acc)]
    simp [List.reverse_cons, List.append_assoc]

theorem runsAux_skip : ∀ pre : List Char, (∀ c ∈ pre, isDigitCh c = false) →
    ∀ rest, digitRunsAux (pre ++ rest) [] = digitRunsAux rest [] := by
  intro pre
  induction pre with
  | nil => intro _ rest; simp
  | cons c cs ih =>
    intro h rest
    have hc : isDigitCh c = false := h c (by simp)
    simp only [List.cons_append, digitRunsAux, List.append_eq, hc, Bool.false_eq_true, if_false, if_true]
    exact ih (fun x hx => h x (by simp [hx])) rest

theorem runsAux_break : ∀ s : List Char, s ≠ [] → (∀ c ∈ s, isDigitCh c = false) →
    ∀ acc, acc ≠ [] → ∀ rest,
    digitRunsAux (s ++ rest) acc = acc.reverse :: digitRunsAux rest [] := by
  intro s hs hnd acc ha rest
  cases s with
  | nil => exact absurd rfl hs
  | cons c cs =>
    have hc : isDigitCh c = false := hnd c (by simp)
    simp only [List.cons_append, digitRunsAux, List.append_eq, hc, Bool.false_eq_true, if_false]
    rw [if_neg ha, runsAux_skip cs (fun x hx => hnd x (by simp [hx])) rest]

/-- Indentation written before the byte at index `i`: four spaces at the start
of each row of twelve (`if i % 12 == 0: f.write('    ')`). -/
def preOf (i : Nat) : List Char := if i % 12 = 0 then ("    ".data) else []

/-- Separator characters written directly after the byte at index `i` of `n`
bytes: a comma unless it is the last byte (`if i != len(data) - 1`), a space
unless it is the twelfth of its row (`if (i % 12) != 11`), and a newline when
it is (`if (i % 12) == 11`). -/
def sufOf (n i : Nat) : List Char :=
  (if i ≠ n - 1 then [','] else []) ++
  (if i % 12 ≠ 11 then [' '] else []) ++
  (if i % 12 = 11 then ['\n'] else [])

/-- Characters written by the generator loop for the remaining bytes starting
at index `i`, where `n` is the total byte count. -/
def emitFrom (n i : Nat) : List Nat → List Char
  | [] => []
  | b :: bs => preOf i ++ natToDecimal b ++ sufOf n i ++ emitFrom n (i + 1) bs

/-- Text written before the byte values: the include line and the opening of
the array declaration for the symbol `v`. -/
def arrayHeader (v : List Char) : List Char :=
  ("#include <cstddef>\n".data) ++
  ("extern const unsigned char ".data) ++ v ++ ("[] = \x7b\n".data)

/-- The emitted size-constant line for symbol `v` and byte count `n`,
declaring `v ++ "_len"`. -/
def sizeLine (v : List Char) (n : Nat) : List Char :=
  ("extern const std::size_t ".data) ++ (v ++ ("_len".data)) ++ (" = ".data) ++
  natToDecimal n ++ (";\n".data)

/-- The complete generated output text for symbol name `v` and input bytes
`data`, in the order the script writes it. -/
def render (v : List Char) (data : List Nat) : List Char :=
  arrayHeader v ++ emitFrom data.length 0 data ++ ("\n\x7d;\n".data) ++
  sizeLine v data.length

theorem preOf_chars (i : Nat) : ∀ c ∈ preOf i, isDigitCh c = false ∧ c ≠ rbrace := by
  intro c hc
  unfold preOf at hc
  split at hc
  · have h : ∀ c ∈ ("    ".data), isDigitCh c = false ∧ c ≠ rbrace := by decide
    exact h c hc
  · simp at hc

theorem sufOf_chars (n i : Nat) : ∀ c ∈ sufOf n i, isDigitCh c = false ∧ c ≠ rbrace := by
  intro c hc
  unfold sufOf at hc
  simp only [List.mem_append] at hc
  rcases hc with (hc | hc) | hc
  · split at hc
    · simp only [List.mem_singleton] at hc; subst hc; exact ⟨by decide, by decide⟩
    · simp at hc
  · split at hc
    · simp only [List.mem_singleton] at hc; subst hc; exact ⟨by decide, by decide⟩
    · simp at hc
  · split at hc
    · simp only [List.mem_singleton] at hc; subst hc; exact ⟨by decide, by decide⟩
    · simp at hc

theorem sufOf_ne_nil (n i : Nat) : sufOf n i ≠ [] := by
  unfold sufOf
  by_cases h : i % 12 = 11 <;> simp [h, List.append_eq_nil]

theorem emitFrom_no_rbrace (l : List Nat) : ∀ n i, rbrace ∉ emitFrom n i l := by
  induction l with
  | nil => intro n i; simp [emitFrom]
  | cons b bs ih =>
    intro n i hmem
    simp only [emitFrom, List.mem_append] at hmem
    rcases hmem with ((h1 | h2) | h3) | h4
    · exact (preOf_chars i rbrace h1).2 rfl
    · exact ((natToDecimal_chars b rbrace h2).2.1) rfl
    · exact (sufOf_chars n i rbrace h3).2 rfl
    · exact ih n (i + 1) h4

theorem runs_emitFrom (l : List Nat) : ∀ n i,
    digitRunsAux (emitFrom n i l ++ ['\n']) [] = l.map natToDecimal := by
  induction l with
  | nil =>
    intro n i
    simp only [emitFrom, List.nil_append, List.map_nil]
    decide
  | cons b bs ih =>
    intro n i
    simp only [emitFrom, List.append_assoc]
    rw [runsAux_skip (preOf i) (fun c hc => (preOf_chars i c hc).1)]
    rw [runsAux_digits (natToDecimal b) (fun c hc => (natToDecimal_chars b c hc).1)]
    rw [List.append_nil]
    rw [runsAux_break (sufOf n i) (sufOf_ne_nil n i)
      (fun c hc => (sufOf_chars n i c hc).1)
      ((natToDecimal b).reverse) (by simp [natToDecimal_ne_nil b]) _]
    rw [List.reverse_reverse, ih n (i + 1)]
    simp

/-- Text strictly between the first `{` of the output and the next `}`:
the region holding the array initializer's values. -/
def betweenBraces (s : List Char) : List Char :=
  (((s.dropWhile (fun c => c != lbrace)).drop 1).takeWhile (fun c => c != rbrace))

/-- The decimal integer literals between the braces of an emitted output,
in textual order. -/
def parseEmitted (s : List Char) : List Nat := (digitRuns (betweenBraces s)).map parseNum

theorem dropWhile_seg (z : Char) (A rest : List Char) (h : z ∉ A) :
    ((A ++ rest).dropWhile (fun c => c != z)) = rest.dropWhile (fun c => c != z) := by
  induction A with
  | nil => simp
  | cons a as ih =>
    have ha : (a != z) = true := by
      simp only [bne_iff_ne]
      intro e
      exact h (by simp [e])
    simp only [List.cons_append, List.dropWhile, ha]
    exact ih (fun hm => h (by simp [hm]))

theorem dropWhile_at (z : Char) (B : List Char) :
    ((z :: B).dropWhile (fun c => c != z)) = z :: B := by
  simp [List.dropWhile]

theorem takeWhile_seg (z : Char) (C rest : List Char) (h : z ∉ C) :
    ((C ++ rest).takeWhile (fun c => c != z)) = C ++ rest.takeWhile (fun c => c != z) := by
  induction C with
  | nil => simp
  | cons a as ih =>
    have ha : (a != z) = true := by
      simp only [bne_iff_ne]
      intro e
      exact h (by simp [e])
    simp only [List.cons_append, List.takeWhile, List.append_eq, ha]
    rw [ih (fun hm => h (by simp [hm]))]

theorem takeWhile_at (z : Char) (D : List Char) :
    ((z :: D).takeWhile (fun c => c != z)) = [] := by
  simp [List.takeWhile]

theorem takeWhile_cons_of (z c : Char) (l : List Char) (h : c ≠ z) :
    ((c :: l).takeWhile (fun x => x != z)) = c :: (l.takeWhile (fun x => x != z)) := by
  have hb : (c != z) = true := by simp [bne_iff_ne, h]
  simp [List.takeWhile, hb]

/-- The text the script writes before the opening brace of the initializer. -/
def openingText (v : List Char) : List Char :=
  ("#include <cstddef>\n".data) ++ ("extern const unsigned char ".data) ++ v ++ ("[] = ".data)

theorem openingText_no_lbrace (v : List Char) (hv : lbrace ∉ v) :
    lbrace ∉ openingText v := by
  intro hm
  unfold openingText at hm
  simp only [List.mem_append] at hm
  rcases hm with ((h1 | h2) | h3) | h4
  · exact absurd h1 (by decide)
  · exact absurd h2 (by decide)
  · exact hv h3
  · exact absurd h4 (by decide)

theorem render_shape (v : List Char) (data : List Nat) :
    render v data = openingText v ++ lbrace ::
      ('\n' :: (emitFrom data.length 0 data ++
        ('\n' :: rbrace :: (';' :: ('\n' :: sizeLine v data.length))))) := by
  unfold render arrayHeader openingText
  have hsplit : ("[] = \x7b\n".data) = ("[] = ".data) ++ lbrace :: ('\n' :: []) := by decide
  have htail : ("\n\x7d;\n".data) = '\n' :: rbrace :: (';' :: ('\n' :: [])) := by decide
  rw [hsplit, htail]
  simp [List.append_assoc]

theorem betweenBraces_render (v : List Char) (data : List Nat) (hv : lbrace ∉ v) :
    betweenBraces (render v data) = '\n' :: (emitFrom data.length 0 data ++ ['\n']) := by
  unfold betweenBraces
  rw [render_shape v data]
  rw [dropWhile_seg lbrace _ _ (openingText_no_lbrace v hv)]
  rw [dropWhile_at lbrace]
  rw [List.drop_one, List.tail_cons]
  rw [takeWhile_cons_of rbrace '\n' _ (by decide)]
  rw [takeWhile_seg rbrace _ _ (emitFrom_no_rbrace data data.length 0)]
  rw [takeWhile_cons_of rbrace '\n' _ (by decide)]
  rw [takeWhile_at rbrace]

theorem map_parse_decimal (l : List Nat) : (l.map natToDecimal).map parseNum = l := by
  induction l with
  | nil => rfl
  | cons b bs ih => simp [parseNum_natToDecimal, ih]

/-- Claim C1: for every byte sequence (including the empty one), embedding it
and then parsing the decimal integer literals between the braces of the
emitted array initializer, in textual order, yields exactly the input bytes. -/
theorem claim1_roundtrip (v : List Char) (data : List Nat)
    (hv : lbrace ∉ v) (hb : ∀ b ∈ data, b < 256) :
    parseEmitted (render v data) = data := by
  unfold parseEmitted digitRuns
  rw [betweenBraces_render v data hv]
  have h1 : ('\n' :: (emitFrom data.length 0 data ++ ['\n'])) =
      ['\n'] ++ (emitFrom data.length 0 data ++ ['\n']) := rfl
  rw [h1, runsAux_skip ['\n'] (by decide), runs_emitFrom]
  exact map_parse_decimal data

/-- Witness for claim C1 at a concrete symbol name and byte list. -/
theorem claim1_roundtrip_witness :
    (lbrace ∉ ("foo".data)) ∧ (∀ b ∈ [0, 255, 7], b < 256) ∧
      parseEmitted (render ("foo".data) [0, 255, 7]) = [0, 255, 7] :=
  ⟨by decide, by decide, claim1_roundtrip ("foo".data) [0, 255, 7] (by decide) (by decide)⟩

/-- Claim C2: for every input byte sequence and symbol name, the output ends
with a size-constant line declaring `v ++ "_len"`, and the decimal literal
written as its value parses back to the exact input byte count. -/
theorem claim2_size_const (v : List Char) (data : List Nat) :
    (∃ A, render v data =
      A ++ (("extern const std::size_t ".data) ++ (v ++ ("_len".data)) ++ (" = ".data) ++
        natToDecimal data.length ++ (";\n".data)))
    ∧ parseNum (natToDecimal data.length) = data.length := by
  constructor
  · refine ⟨arrayHeader v ++ emitFrom data.length 0 data ++ ("\n\x7d;\n".data), ?_⟩
    simp [render, sizeLine, List.append_assoc]
  · exact parseNum_natToDecimal data.length

/-- Everything printed between the byte value at index `i` and the next byte
value (or the closing brace): the separator characters after the value,
followed by the next row's indentation, or by the final newline before the
closing brace when the value is the last one. -/
def sepAfterOf (n i : Nat) : List Char :=
  sufOf n i ++ (if i + 1 = n then ['\n'] else preOf (i + 1))

/-- The initializer region as alternating decimal values and separators,
starting at index `i` of `n` bytes. -/
def valSeps (n i : Nat) : List Nat → List Char
  | [] => []
  | b :: bs => natToDecimal b ++ sepAfterOf n i ++ valSeps n (i + 1) bs

theorem emitFrom_decompose (l : List Nat) : ∀ i, l ≠ [] →
    emitFrom (i + l.length) i l ++ ['\n'] = preOf i ++ valSeps (i + l.length) i l := by
  induction l with
  | nil => intro i h; exact absurd rfl h
  | cons b bs ih =>
    intro i _
    cases bs with
    | nil =>
      simp only [emitFrom, valSeps, List.length_cons, List.length_nil]
      have h1 : i + 1 = i + (0 + 1) := by omega
      rw [sepAfterOf, if_pos h1.symm]
      simp [List.append_assoc]
    | cons b2 bs2 =>
      have h1 : ¬ (i + 1 = i + (b :: b2 :: bs2).length) := by
        simp only [List.length_cons]
        omega
      have hstep : emitFrom (i + (b :: b2 :: bs2).length) i (b :: b2 :: bs2)
          = preOf i ++ natToDecimal b ++ sufOf (i + (b :: b2 :: bs2).length) i
            ++ emitFrom (i + (b :: b2 :: bs2).length) (i + 1) (b2 :: bs2) := rfl
      have hv : valSeps (i + (b :: b2 :: bs2).length) i (b :: b2 :: bs2)
          = natToDecimal b ++ sepAfterOf (i + (b :: b2 :: bs2).length) i
            ++ valSeps (i + (b :: b2 :: bs2).length) (i + 1) (b2 :: bs2) := rfl
      rw [hstep, hv, sepAfterOf, if_neg h1]
      have h2 : i + (b :: b2 :: bs2).length = (i + 1) + (b2 :: bs2).length := by
        simp only [List.length_cons]
        omega
      rw [h2]
      simp only [List.append_assoc]
      rw [← ih (i + 1) (by simp)]

theorem count_comma_indent : (("    ".data)).count ',' = 0 := by decide

theorem count_comma_nl : ((['\n'] : List Char)).count ',' = 0 := by decide

theorem count_comma_sp : (([' '] : List Char)).count ',' = 0 := by decide

theorem count_comma_single : (([','] : List Char)).count ',' = 1 := by decide

theorem sepAfterOf_comma_count (n i : Nat) (h : i < n) :
    (sepAfterOf n i).count ',' = if i = n - 1 then 0 else 1 := by
  by_cases h1 : i = n - 1
  · subst h1
    have h3 : n - 1 + 1 = n := by omega
    by_cases h2 : (n - 1) % 12 = 11 <;>
      simp [sepAfterOf, sufOf, h2, h3, List.count_append,
        count_comma_nl, count_comma_sp, count_comma_single]
  · have h3 : ¬ (i + 1 = n) := by omega
    by_cases h2 : i % 12 = 11
    · have h4 : (i + 1) % 12 = 0 := by omega
      simp [sepAfterOf, sufOf, preOf, h1, h2, h3, h4, List.count_append,
        count_comma_indent, count_comma_nl, count_comma_sp, count_comma_single]
    · have h4 : ¬ ((i + 1) % 12 = 0) := by omega
      simp [sepAfterOf, sufOf, preOf, h1, h2, h3, h4, List.count_append,
        count_comma_indent, count_comma_nl, count_comma_sp, count_comma_single]

theorem sepAfterOf_newline (n i : Nat) (h : i < n)
    (hcase : i % 12 = 11 ∨ i = n - 1) : '\n' ∈ sepAfterOf n i := by
  rcases hcase with h2 | h1
  · simp [sepAfterOf, sufOf, h2, List.mem_append]
  · have h3 : i + 1 = n := by omega
    simp [sepAfterOf, h3, List.mem_append]

theorem sepAfterOf_inline (n i : Nat) (h : i < n)
    (h1 : ¬ i = n - 1) (h2 : ¬ i % 12 = 11) : sepAfterOf n i = [',', ' '] := by
  have h3 : ¬ (i + 1 = n) := by omega
  have h4 : ¬ ((i + 1) % 12 = 0) := by omega
  simp [sepAfterOf, sufOf, preOf, h1, h2, h3, h4]

theorem sepAfterOf_nondigit (n i : Nat) : ∀ c ∈ sepAfterOf n i, isDigitCh c = false := by
  intro c hc
  unfold sepAfterOf at hc
  rw [List.mem_append] at hc
  rcases hc with hc | hc
  · exact (sufOf_chars n i c hc).1
  · split at hc
    · simp only [List.mem_singleton] at hc
      subst hc
      decide
    · exact (preOf_chars (i + 1) c hc).1

theorem natToDecimal_no_newline (n : Nat) : '\n' ∉ natToDecimal n := by
  intro hm
  exact ((natToDecimal_chars n '\n' hm).2.2) rfl

theorem render_tail (v : List Char) (data : List Nat) (hnl : '\n' ∉ v) :
    ∃ A s, render v data = A ++ '\n' :: rbrace :: (';' :: ('\n' :: (s ++ ['\n'])))
      ∧ '\n' ∉ s := by
  refine ⟨arrayHeader v ++ emitFrom data.length 0 data,
    ("extern const std::size_t ".data) ++ (v ++ ("_len".data)) ++ (" = ".data) ++
      natToDecimal data.length ++ [';'], ?_, ?_⟩
  · have htail : ("\n\x7d;\n".data) = '\n' :: rbrace :: (';' :: ('\n' :: [])) := by decide
    have hsemi : ((";\n".data) : List Char) = ';' :: ('\n' :: []) := by decide
    rw [render, sizeLine, htail, hsemi]
    simp [List.append_assoc]
  · intro hm
    simp only [List.mem_append, List.mem_singleton] at hm
    rcases hm with (((h1 | h2) | h3) | h4) | h5
    · exact absurd h1 (by decide)
    · rcases h2 with h2a | h2b
      · exact hnl h2a
      · exact absurd h2b (by decide)
    · exact absurd h3 (by decide)
    · exact natToDecimal_no_newline data.length h4
    · exact absurd h5 (by decide)

/-- Claim C3: the formatting contract of the emitted text.  The initializer
region decomposes into the decimal renderings of the bytes in order,
interleaved with separator strings; each separator holds exactly one comma
except after the last byte, which is followed by no comma; a newline occurs in
the separator after every twelfth value and after the final value; mid-row
separators are exactly a comma and a space; separators contain no digits; the
closing brace line is exactly rendered as newline, brace, semicolon, newline;
and the size declaration occupies a single line. -/
theorem claim3_format (v : List Char) (data : List Nat)
    (hv : lbrace ∉ v) (hnl : '\n' ∉ v) :
    (data ≠ [] → betweenBraces (render v data)
        = '\n' :: (preOf 0 ++ valSeps data.length 0 data))
    ∧ (∀ i, i < data.length →
        ((sepAfterOf data.length i).count ',' = if i = data.length - 1 then 0 else 1)
        ∧ (i % 12 = 11 ∨ i = data.length - 1 → '\n' ∈ sepAfterOf data.length i)
        ∧ (¬ i = data.length - 1 → ¬ i % 12 = 11 →
            sepAfterOf data.length i = [',', ' '])
        ∧ (∀ c ∈ sepAfterOf data.length i, isDigitCh c = false))
    ∧ (∃ A s, render v data = A ++ '\n' :: rbrace :: (';' :: ('\n' :: (s ++ ['\n'])))
        ∧ '\n' ∉ s) := by
  refine ⟨?_, ?_, render_tail v data hnl⟩
  · intro hne
    rw [betweenBraces_render v data hv]
    have hd := emitFrom_decompose data 0 hne
    rw [Nat.zero_add] at hd
    rw [hd]
  · intro i hi
    exact ⟨sepAfterOf_comma_count data.length i hi,
      sepAfterOf_newline data.length i hi,
      sepAfterOf_inline data.length i hi,
      sepAfterOf_nondigit data.length i⟩

/-- Witness for claim C3 at a concrete symbol name and byte list. -/
theorem claim3_format_witness :
    (lbrace ∉ ("foo".data)) ∧ ('\n' ∉ ("foo".data)) ∧
    (([5] : List Nat) ≠ [] → betweenBraces (render ("foo".data) [5])
        = '\n' :: (preOf 0 ++ valSeps ([5] : List Nat).length 0 [5]))
    ∧ (∀ i, i < ([5] : List Nat).length →
        ((sepAfterOf ([5] : List Nat).length i).count ','
            = if i = ([5] : List Nat).length - 1 then 0 else 1)
        ∧ (i % 12 = 11 ∨ i = ([5] : List Nat).length - 1 →
            '\n' ∈ sepAfterOf ([5] : List Nat).length i)
        ∧ (¬ i = ([5] : List Nat).length - 1 → ¬ i % 12 = 11 →
            sepAfterOf ([5] : List Nat).length i = [',', ' '])
        ∧ (∀ c ∈ sepAfterOf ([5] : List Nat).length i, isDigitCh c = false))
    ∧ (∃ A s, render ("foo".data) [5]
          = A ++ '\n' :: rbrace :: (';' :: ('\n' :: (s ++ ['\n'])))
        ∧ '\n' ∉ s) := by
  refine ⟨by decide, by decide, ?_⟩
  exact claim3_format ("foo".data) [5] (by decide) (by decide)

/-- Lines of a character list, split at each newline character. -/
def splitLines : List Char → List (List Char)
  | [] => [[]]
  | c :: cs =>
    if c = '\n' then [] :: splitLines cs
    else
      match splitLines cs with
      | [] => [c] :: []
      | l :: ls => (c :: l) :: ls

/-- Claim C4: for the input bytes 0..13 and symbol name `foo`, the initializer
region holds exactly two non-empty lines, the first carrying the twelve
comma-terminated values 0 through 11 and the second carrying 12 and 13, and
the output contains the size-constant line `foo_len = 14`. -/
theorem claim4_concrete_scenario :
    ((splitLines (betweenBraces (render ("foo".data) (List.range 14)))).filter
        (fun l => !l.isEmpty))
      = [("    0, 1, 2, 3, 4, 5, 6, 7, 8, 9, 10, 11,".data), ("    12, 13 ".data)]
    ∧ ("extern const std::size_t foo_len = 14;".data)
        ∈ splitLines (render ("foo".data) (List.range 14)) := by
  constructor
  · decide
  · decide

/-- Claim C5: for the empty input, the emitted initializer region contains no
decimal literals at all, and the output ends with a size-constant line whose
value is the single digit 0. -/
theorem claim5_empty_input (v : List Char) (hv : lbrace ∉ v) :
    digitRuns (betweenBraces (render v [])) = []
    ∧ (∃ A, render v [] = A ++ (("extern const std::size_t ".data) ++
        (v ++ ("_len".data)) ++ (" = ".data) ++ ('0' :: []) ++ (";\n".data))) := by
  constructor
  · unfold digitRuns
    rw [betweenBraces_render v [] hv]
    simp only [emitFrom, List.length_nil, List.nil_append]
    decide
  · refine ⟨arrayHeader v ++ ("\n\x7d;\n".data), ?_⟩
    have h0 : natToDecimal (([] : List Nat).length) = '0' :: [] := by decide
    rw [render, sizeLine, h0]
    simp [emitFrom, List.append_assoc]

/-- Witness for claim C5 at a concrete symbol name. -/
theorem claim5_empty_input_witness :
    (lbrace ∉ ("foo".data)) ∧
    (digitRuns (betweenBraces (render ("foo".data) [])) = []
    ∧ (∃ A, render ("foo".data) [] = A ++ (("extern const std::size_t ".data) ++
        (("foo".data) ++ ("_len".data)) ++ (" = ".data) ++ ('0' :: []) ++ (";\n".data)))) :=
  ⟨by decide, claim5_empty_input ("foo".data) (by decide)⟩

/-- One entry per `f.write` call the script makes on the output file while
emitting the byte at index `i` of `n` bytes: the optional row indentation, the
decimal value, the optional comma, the optional space, the optional newline. -/
def writeEventsByte (n i b : Nat) : List (List Char) :=
  (if i % 12 = 0 then [("    ".data)] else []) ++ [natToDecimal b]
    ++ (if i ≠ n - 1 then [[',']] else [])
    ++ (if i % 12 ≠ 11 then [[' ']] else [])
    ++ (if i % 12 = 11 then [['\n']] else [])

/-- The `f.write` calls made by the loop for the remaining bytes starting at
index `i`. -/
def writeEventsFrom (n i : Nat) : List Nat → List (List Char)
  | [] => []
  | b :: bs => writeEventsByte n i b ++ writeEventsFrom n (i + 1) bs

/-- The full sequence of `f.write` calls the script makes on the output file,
in order: the include line, the array opener, the per-byte pieces, the
closer, and the size-constant line. -/
def writeEvents (v : List Char) (data : List Nat) : List (List Char) :=
  [("#include <cstddef>\n".data),
    (("extern const unsigned char ".data) ++ v ++ ("[] = \x7b\n".data))]
    ++ writeEventsFrom data.length 0 data
    ++ [("\n\x7d;\n".data), sizeLine v data.length]

theorem writeEventsByte_flatten (n i b : Nat) :
    (writeEventsByte n i b).flatten = preOf i ++ natToDecimal b ++ sufOf n i := by
  unfold writeEventsByte preOf sufOf
  by_cases h1 : i % 12 = 0 <;> by_cases h2 : i ≠ n - 1 <;> by_cases h3 : i % 12 = 11 <;>
    simp [h1, h2, h3, List.append_assoc]

theorem writeEventsFrom_flatten (l : List Nat) : ∀ n i,
    (writeEventsFrom n i l).flatten = emitFrom n i l := by
  induction l with
  | nil => intro n i; simp [writeEventsFrom, emitFrom]
  | cons b bs ih =>
    intro n i
    simp only [writeEventsFrom, emitFrom, List.flatten_append]
    rw [writeEventsByte_flatten, ih n (i + 1)]

/-- Counterexample to claim C9: even for an empty input the script does not
produce its output with a single write call; it makes four. -/
theorem claim9_single_write_false :
    ¬ ((writeEvents ("foo".data) ([] : List Nat)).length = 1) := by decide

/-- Claim C9 as amended: the output is produced by a sequence of at least four
buffered write calls on the opened output file (two header writes, the
per-byte pieces, the closer, and the size line), and the concatenation of all
written pieces equals the complete generated text. -/
theorem claim9_write_sequence (v : List Char) (data : List Nat) :
    (writeEvents v data).flatten = render v data
    ∧ 4 ≤ (writeEvents v data).length := by
  constructor
  · unfold writeEvents render arrayHeader
    simp only [List.flatten_append, List.flatten_cons, List.flatten_nil]
    rw [writeEventsFrom_flatten data data.length 0]
    simp [List.append_assoc]
  · unfold writeEvents
    simp only [List.length_append, List.length_cons, List.length_nil]
    omega

/-- Outcome of one invocation of the script: the usage-error path (argument
check failed), the uncaught read failure (the `open(in_path, 'rb')` raising),
or success with the output path and the content written there.  The traceback
text Python prints for an uncaught exception is not modelled. -/
inductive RunOutcome where
  | usage : RunOutcome
  | readFailure : RunOutcome
  | ok : String → List Char → RunOutcome
deriving DecidableEq

/-- Process exit code of an outcome: `sys.exit(2)` on the usage path, the
interpreter's exit code 1 for an uncaught exception, 0 on success. -/
def RunOutcome.exitCode : RunOutcome → Nat
  | .usage => 2
  | .readFailure => 1
  | .ok _ _ => 0

/-- Text the script itself prints to the error stream. -/
def RunOutcome.stderrText : RunOutcome → List Char
  | .usage => ("Usage: embed_bin.py <input> <varname> <output>".data)
  | .readFailure => []
  | .ok _ _ => []

/-- The output file produced by the invocation, as a path/content pair, or
`none` when the output path was never opened. -/
def RunOutcome.outputWritten : RunOutcome → Option (String × List Char)
  | .ok p c => some (p, c)
  | _ => none

/-- The usage message printed when too few arguments are supplied. -/
def usageMsg : List Char := ("Usage: embed_bin.py <input> <varname> <output>".data)

/-- One invocation of the script with argument vector `argv` (the script name
itself at index 0, as in `sys.argv`), over an abstract file system `readFile`
returning the bytes of a readable path and `none` for an unreadable one.
Mirrors the script top to bottom: the argument-count check and `sys.exit(2)`,
then the read of `argv[1]`, then the generation and write of the output. -/
def runEmbed (argv : List String) (readFile : String → Option (List Nat)) : RunOutcome :=
  if argv.length < 4 then .usage
  else
    match readFile (argv.getD 1 "") with
    | none => .readFailure
    | some data => .ok (argv.getD 3 "") (render ((argv.getD 2 "").data) data)

/-- Claim C6: with fewer than three positional arguments the script prints
the usage message to the error stream, exits with code 2, and never creates
or modifies the output file. -/
theorem claim6_missing_args (prog : String) (args : List String)
    (r : String → Option (List Nat)) (h : args.length < 3) :
    runEmbed (prog :: args) r = RunOutcome.usage
    ∧ (runEmbed (prog :: args) r).exitCode = 2
    ∧ (runEmbed (prog :: args) r).stderrText = usageMsg
    ∧ (runEmbed (prog :: args) r).outputWritten = none := by
  have h4 : (prog :: args).length < 4 := by
    simp only [List.length_cons]
    omega
  have he : runEmbed (prog :: args) r = RunOutcome.usage := by
    unfold runEmbed
    rw [if_pos h4]
  exact ⟨he, by rw [he]; rfl, by rw [he]; rfl, by rw [he]; rfl⟩

/-- Witness for claim C6 at a concrete argument vector. -/
theorem claim6_missing_args_witness :
    ((["in.bin"] : List String).length < 3) ∧
    (runEmbed (("embed_bin.py" : String) :: ["in.bin"]) (fun _ => none) = RunOutcome.usage
    ∧ (runEmbed (("embed_bin.py" : String) :: ["in.bin"]) (fun _ => none)).exitCode = 2
    ∧ (runEmbed (("embed_bin.py" : String) :: ["in.bin"]) (fun _ => none)).stderrText = usageMsg
    ∧ (runEmbed (("embed_bin.py" : String) :: ["in.bin"]) (fun _ => none)).outputWritten = none) :=
  ⟨by decide, claim6_missing_args ("embed_bin.py") (["in.bin"]) (fun _ => none) (by decide)⟩

/-- Claim C7: when the input path cannot be opened for reading, the invocation
fails (non-zero exit, from the uncaught I/O error) and the output path is
never opened, created, or truncated. -/
theorem claim7_unreadable_input (argv : List String) (r : String → Option (List Nat))
    (h4 : 4 ≤ argv.length) (hr : r (argv.getD 1 "") = none) :
    runEmbed argv r = RunOutcome.readFailure
    ∧ (runEmbed argv r).outputWritten = none
    ∧ (runEmbed argv r).exitCode ≠ 0 := by
  have hlt : ¬ (argv.length < 4) := by omega
  have he : runEmbed argv r = RunOutcome.readFailure := by
    unfold runEmbed
    rw [if_neg hlt, hr]
  exact ⟨he, by rw [he]; rfl, by rw [he]; decide⟩

/-- Witness for claim C7 at a concrete argument vector and file system. -/
theorem claim7_unreadable_input_witness :
    (4 ≤ (["embed_bin.py", "in.bin", "foo", "out.cc"] : List String).length) ∧
    ((fun (_ : String) => (none : Option (List Nat)))
        ((["embed_bin.py", "in.bin", "foo", "out.cc"] : List String).getD 1 "") = none) ∧
    (runEmbed (["embed_bin.py", "in.bin", "foo", "out.cc"]) (fun _ => none)
        = RunOutcome.readFailure
    ∧ (runEmbed (["embed_bin.py", "in.bin", "foo", "out.cc"]) (fun _ => none)).outputWritten
        = none
    ∧ (runEmbed (["embed_bin.py", "in.bin", "foo", "out.cc"]) (fun _ => none)).exitCode ≠ 0) :=
  ⟨by decide, rfl,
    claim7_unreadable_input (["embed_bin.py", "in.bin", "foo", "out.cc"])
      (fun _ => none) (by decide) rfl⟩

/-- Claim C8: the embedder is deterministic; two runs whose reads of the input
path return the same bytes, on the same argument vector, produce the same
outcome, including a byte-for-byte identical generated text. -/
theorem claim8_deterministic (argv : List String)
    (r1 r2 : String → Option (List Nat))
    (h : r1 (argv.getD 1 "") = r2 (argv.getD 1 "")) :
    runEmbed argv r1 = runEmbed argv r2 := by
  unfold runEmbed
  rw [h]

/-- Witness for claim C8 at a concrete argument vector and file systems. -/
theorem claim8_deterministic_witness :
    ((fun (_ : String) => some ([1, 2] : List Nat)) "in.bin"
        = (fun (_ : String) => some ([1, 2] : List Nat)) "in.bin") ∧
    runEmbed (["embed_bin.py", "in.bin", "foo", "out.cc"]) (fun _ => some [1, 2])
      = runEmbed (["embed_bin.py", "in.bin", "foo", "out.cc"]) (fun _ => some [1, 2]) :=
  ⟨rfl, claim8_deterministic (["embed_bin.py", "in.bin", "foo", "out.cc"])
    (fun _ => some [1, 2]) (fun _ => some [1, 2]) rfl⟩

/-- Claim C10: invoked with more than three positional arguments the script
reports no argument error; it behaves exactly as if invoked with the first
three (input path, symbol name, output path), silently ignoring the extras. -/
theorem claim10_extra_args (prog a b c : String) (rest : List String)
    (r : String → Option (List Nat)) (hr : rest ≠ []) :
    runEmbed (prog :: a :: b :: c :: rest) r = runEmbed [prog, a, b, c] r
    ∧ runEmbed (prog :: a :: b :: c :: rest) r ≠ RunOutcome.usage := by
  have h1 : ¬ ((prog :: a :: b :: c :: rest).length < 4) := by
    simp only [List.length_cons]
    omega
  have h2 : ¬ (([prog, a, b, c] : List String).length < 4) := by simp
  constructor
  · simp [runEmbed, h1, h2, List.getD]
  · simp only [runEmbed, h1, if_false, if_neg h1]
    cases hread : r ((prog :: a :: b :: c :: rest).getD 1 "") <;> simp [hread]

/-- Witness for claim C10 at a concrete argument vector with one extra
argument. -/
theorem claim10_extra_args_witness :
    ((["extra"] : List String) ≠ []) ∧
    (runEmbed (("embed_bin.py" : String) :: ("in.bin" : String) :: ("foo" : String) ::
        ("out.cc" : String) :: ["extra"]) (fun _ => some [1])
      = runEmbed ["embed_bin.py", "in.bin", "foo", "out.cc"] (fun _ => some [1])
    ∧ runEmbed (("embed_bin.py" : String) :: ("in.bin" : String) :: ("foo" : String) ::
        ("out.cc" : String) :: ["extra"]) (fun _ => some [1]) ≠ RunOutcome.usage) :=
  ⟨by decide, claim10_extra_args ("embed_bin.py") ("in.bin") ("foo") ("out.cc")
    (["extra"]) (fun _ => some [1]) (by decide)⟩
